import Mathlib

/-!
# Verification of soundcloud-fs stream and cache components

A shallow embedding of the `ioutil` stream combinators (`Concat`, `Skip`,
`LazyOpen`), the `RangeSeeker` HTTP range reader, the `DirCache` memoizing
directory decorator, and the FUSE `open` responder of the soundcloud-fs
repository, together with proofs about the specification claims.

Byte sources are modelled as in the repository's own test suite: in-memory
cursors (`std::io::Cursor<Vec<u8>>`), whose `read`/`seek` operations never
fail.  Machine integers (`u64`/`i64`) are modelled as `Nat`/`Int`; none of
the verified properties depend on wrap-around behaviour.
-/

/-- Bytes are modelled as natural numbers; no claim depends on the 8-bit
width. -/
abbrev Byte := Nat

/-- `std::io::SeekFrom`.  `start` carries a `u64` (`Nat`), the other two an
`i64` (`Int`). -/
inductive SeekFrom where
  | start (offset : Nat)
  | current (offset : Int)
  | fromEnd (offset : Int)
deriving DecidableEq, Repr

/-- `std::io::Cursor<Vec<u8>>`: an in-memory byte source with a position. -/
structure Cursor where
  data : List Byte
  pos : Nat
deriving DecidableEq, Repr

namespace Cursor

/-- The bytes remaining from the current position (`fill_buf` clamps the
position to the length, which `List.drop` does for free). -/
def rest (c : Cursor) : List Byte := c.data.drop c.pos

/-- `Cursor::read`: read up to `n` bytes from the current position and
advance it.  Never fails. -/
def read (c : Cursor) (n : Nat) : Cursor × List Byte :=
  let chunk := c.rest.take n
  ({ c with pos := c.pos + chunk.length }, chunk)

/-- `Cursor::seek(SeekFrom::Start(o))`: always succeeds, also past the
end. -/
def seekStart (c : Cursor) (o : Nat) : Cursor := { c with pos := o }

/-- `Cursor::seek`: `Start` always succeeds; `Current`/`End` fail when the
resolved position is negative. -/
def seek (c : Cursor) (pos : SeekFrom) : Cursor × Except String Nat :=
  match pos with
  | .start o => ({ c with pos := o }, .ok o)
  | .current o =>
    let p : Int := (c.pos : Int) + o
    if p < 0 then (c, .error "invalid seek to a negative position")
    else ({ c with pos := p.toNat }, .ok p.toNat)
  | .fromEnd o =>
    let p : Int := (c.data.length : Int) + o
    if p < 0 then (c, .error "invalid seek to a negative position")
    else ({ c with pos := p.toNat }, .ok p.toNat)

end Cursor

/-! ## `ioutil::Concat` (src/ioutil/concat.rs)

`Concat<T>` instantiated at `T = Cursor`.  `ranges` is the lazily built
list of `(start, end)` byte ranges, one per indexed source. -/

structure ConcatC where
  files : List Cursor
  chunk_index : Nat
  offset : Nat
  ranges : List (Nat × Nat)
deriving DecidableEq, Repr

namespace ConcatC

/-- `Concat::new`: rejects an empty source list, otherwise stores the
sources untouched with no ranges discovered. -/
def new (files : List Cursor) : Except String ConcatC :=
  if files.isEmpty then .error "no files specified"
  else .ok { files := files, chunk_index := 0, offset := 0, ranges := [] }

/-- A fresh `Concat` over the given chunk contents, every source cursor at
position 0 (as produced by `Concat::new` on fresh cursors). -/
def fresh (datas : List (List Byte)) : ConcatC :=
  { files := datas.map (fun d => ⟨d, 0⟩), chunk_index := 0, offset := 0, ranges := [] }

/-- The end of the last discovered range (`self.ranges.last().map(|r| r.end).unwrap_or(0)`). -/
def currentEnd (c : ConcatC) : Nat := ((c.ranges.getLast?).map Prod.snd).getD 0

/-- `Concat::index_up_to`: extend `ranges` until one covers `new_offset` or
all sources are indexed.  Discovering a source's size is
`file.seek(SeekFrom::End(0))`, which moves that cursor to its end. -/
def indexUpTo (c : ConcatC) (new_offset : Nat) : ConcatC :=
  if new_offset < c.currentEnd then c
  else
    match h : c.files[c.ranges.length]? with
    | none => c
    | some file =>
      let size := file.data.length
      let files' := c.files.set c.ranges.length { file with pos := file.data.length }
      indexUpTo { c with files := files',
                         ranges := c.ranges ++ [(c.currentEnd, c.currentEnd + size)] }
        new_offset
termination_by c.files.length - c.ranges.length
decreasing_by
  simp only [List.length_set, List.length_append, List.length_cons, List.length_nil]
  have hlt : c.ranges.length < c.files.length := by
    have := List.getElem?_eq_some_iff.mp h
    exact this.1
  omega

/-- `index_up_to(u64::MAX)`: the guard `u64::MAX < current_end` can never
fire (all sizes fit in `u64`), so this indexes every remaining source. -/
def indexAll (c : ConcatC) : ConcatC :=
  match h : c.files[c.ranges.length]? with
  | none => c
  | some file =>
    let size := file.data.length
    let files' := c.files.set c.ranges.length { file with pos := file.data.length }
    indexAll { c with files := files',
                      ranges := c.ranges ++ [(c.currentEnd, c.currentEnd + size)] }
termination_by c.files.length - c.ranges.length
decreasing_by
  simp only [List.length_set, List.length_append, List.length_cons, List.length_nil]
  have hlt : c.ranges.length < c.files.length := by
    have := List.getElem?_eq_some_iff.mp h
    exact this.1
  omega

/-- The read loop of `Concat::read`.  `buf` is the data accumulated so far
towards a caller buffer of size `n`; `nextChunk` is the `next_chunk` flag
that forces a `seek(Start(0))` when transitioning into the next source. -/
def readLoop (files : List Cursor) (ci : Nat) (nextChunk : Bool) (buf : List Byte)
    (n : Nat) : List Cursor × Nat × List Byte :=
  if h : buf.length < n ∧ ci < files.length then
    let file := files[ci]
    let file := if nextChunk then file.seekStart 0 else file
    let (file', chunk) := file.read (n - buf.length)
    let files' := files.set ci file'
    if chunk.length = 0 then
      if files'.length ≤ ci + 1 then (files', ci + 1, buf)
      else readLoop files' (ci + 1) true buf n
    else readLoop files' ci false (buf ++ chunk) n
  else (files, ci, buf)
termination_by (files.length - ci, n - buf.length)
decreasing_by
  all_goals simp only [List.length_set, List.length_append]
  · left
    omega
  · right
    omega

/-- `Concat::read` over cursor sources: source reads and the
transition seeks never fail, so the `io::Result` is always `Ok`. -/
def read (c : ConcatC) (n : Nat) : ConcatC × List Byte :=
  let (files', ci', out) := readLoop c.files c.chunk_index false [] n
  ({ c with files := files', chunk_index := ci', offset := c.offset + out.length }, out)

/-- The translation of an absolute offset to a source index: Rust's
`binary_search_by` over the sorted, disjoint `ranges` returns the index of
the unique range containing `offset` when it exists (the comparator answers
`Equal` exactly there), and on failure the code falls back to
`ranges.len() - 1`. -/
def findChunk (ranges : List (Nat × Nat)) (offset : Nat) : Nat :=
  (ranges.findIdx? (fun r => r.1 ≤ offset ∧ offset < r.2)).getD (ranges.length - 1)

/-- The common tail of `Concat::seek` after the absolute offset `no` has
been resolved and indexing is done: pick the chunk, seek it to the
intra-source offset, record the position. -/
def seekFinish (c : ConcatC) (no : Nat) : ConcatC × Except String Nat :=
  let ci := findChunk c.ranges no
  let start := ((c.ranges[ci]?).getD (0, 0)).1
  let files' := match c.files[ci]? with
    | some f => c.files.set ci { f with pos := no - start }
    | none => c.files
  ({ c with offset := no, chunk_index := ci, files := files' }, .ok no)

/-- `Concat::seek`.  `Current`/`End` fail when the resolved offset is
negative; `End` first indexes every source.  The state is returned also on
the error paths, mirroring `&mut self`. -/
def seek (c0 : ConcatC) (pos : SeekFrom) : ConcatC × Except String Nat :=
  match pos with
  | .start o => seekFinish (c0.indexUpTo o) o
  | .current o =>
    let no : Int := (c0.offset : Int) + o
    if no < 0 then (c0, .error "ioutil::Concat: seek position resolves to a negative offset")
    else seekFinish (c0.indexUpTo no.toNat) no.toNat
  | .fromEnd o =>
    let c := c0.indexAll
    let length : Int := ((c.ranges.getLast?.getD (0, 0)).2 : Int)
    let no := length + o
    if no < 0 then (c, .error "ioutil::Concat: seek position resolves to a negative offset")
    else seekFinish c no.toNat

/-- The remaining stream seen by the read loop from source index `ci`: the
rest of the current source (its full contents when the `nextChunk` flag
`nc` is set, since the loop is about to rewind it) followed by the full
contents of the later sources. -/
def restFrom (files : List Cursor) (ci : Nat) (nc : Bool) : List Byte :=
  match files.drop ci with
  | [] => []
  | f :: later => (if nc then f.data else f.rest) ++ (later.map Cursor.data).flatten

/-- The logical remaining byte stream of a `Concat` state: the rest of the
current source followed by the full contents of the later sources (which
the read loop resets to their starts when it transitions into them). -/
def remaining (c : ConcatC) : List Byte :=
  restFrom c.files c.chunk_index false

/-- `k` successive `read` calls with buffer size `n`, collecting the chunks
returned by each call. -/
def readChunks (c : ConcatC) (n : Nat) : Nat → ConcatC × List (List Byte)
  | 0 => (c, [])
  | k + 1 =>
    let (c', out) := c.read n
    let (c'', outs) := readChunks c' n k
    (c'', out :: outs)


theorem restFrom_of_length_le (files : List Cursor) (ci : Nat) (nc : Bool)
    (h : files.length ≤ ci) : restFrom files ci nc = [] := by
  simp [restFrom, List.drop_of_length_le h]

theorem restFrom_cons (files : List Cursor) (ci : Nat) (nc : Bool) (h : ci < files.length) :
    restFrom files ci nc
      = (if nc then (files[ci]).data else (files[ci]).rest)
        ++ ((files.drop (ci + 1)).map Cursor.data).flatten := by
  rw [restFrom, List.drop_eq_getElem_cons h]

theorem restFrom_true (files : List Cursor) (ci : Nat) :
    restFrom files ci true = ((files.drop ci).map Cursor.data).flatten := by
  rw [restFrom]
  cases hd : files.drop ci with
  | nil => simp
  | cons f later => simp

theorem readLoop_exit (files : List Cursor) (ci : Nat) (nc : Bool) (buf : List Byte) (n : Nat)
    (h : ¬(buf.length < n ∧ ci < files.length)) :
    readLoop files ci nc buf n = (files, ci, buf) := by
  rw [readLoop]; simp [h]

theorem readLoop_step (files : List Cursor) (ci : Nat) (nc : Bool) (buf : List Byte) (n : Nat)
    (h1 : buf.length < n) (h2 : ci < files.length) :
    readLoop files ci nc buf n =
      (let file := if nc then (files[ci]).seekStart 0 else files[ci]
       let p := file.read (n - buf.length)
       let files' := files.set ci p.1
       if p.2.length = 0 then
         if files'.length ≤ ci + 1 then (files', ci + 1, buf)
         else readLoop files' (ci + 1) true buf n
       else readLoop files' ci false (buf ++ p.2) n) := by
  rw [readLoop]
  simp only [h1, h2, and_self, dif_pos, true_and]

set_option maxHeartbeats 1000000 in
theorem readLoop_spec (files : List Cursor) (ci : Nat) (nc : Bool) (buf : List Byte) (n : Nat) :
    (nc = true → buf.length < n ∧ ci < files.length) →
    (readLoop files ci nc buf n).2.2
        = buf ++ (restFrom files ci nc).take (n - buf.length) ∧
      restFrom (readLoop files ci nc buf n).1 (readLoop files ci nc buf n).2.1 false
        = (restFrom files ci nc).drop (n - buf.length) := by
  induction files, ci, nc, buf, n using readLoop.induct with
  | case1 files ci nc buf n h fileA fileB file' chunk hread filesL hchunk hexit =>
    intro _
    have h1 := h.1
    have h2 := h.2
    have hchunkNil : chunk = [] := List.length_eq_zero.mp hchunk
    have hread2 : ((if nc then (files[ci]).seekStart 0 else files[ci]).read
        (n - buf.length)) = (file', chunk) := hread
    have hc : (if nc then (files[ci]).seekStart 0 else files[ci]).rest.take
        (n - buf.length) = chunk := by
      have := congrArg Prod.snd hread2
      simpa [Cursor.read] using this
    have hrest : (if nc then (files[ci]).data else (files[ci]).rest) = [] := by
      rw [hchunkNil] at hc
      rcases List.take_eq_nil_iff.mp hc with hm | hr
      · omega
      · cases nc <;> simpa [Cursor.seekStart, Cursor.rest] using hr
    have hlen : files.length ≤ ci + 1 := by simpa [filesL] using hexit
    have hR : restFrom files ci nc = [] := by
      rw [restFrom_cons files ci nc h2, hrest, List.drop_of_length_le hlen]
      simp
    rw [readLoop_step files ci nc buf n h1 h2]
    simp only [hread2, hchunkNil, List.length_nil, List.length_set, eq_self_iff_true, if_true,
      if_pos hlen]
    refine ⟨by simp [hR], ?_⟩
    rw [hR, restFrom_of_length_le _ _ _ (by simpa using hlen)]
    simp
  | case2 files ci nc buf n h fileA fileB file' chunk hread filesL hchunk hns ih =>
    intro _
    have h1 := h.1
    have h2 := h.2
    have hchunkNil : chunk = [] := List.length_eq_zero.mp hchunk
    have hread2 : ((if nc then (files[ci]).seekStart 0 else files[ci]).read
        (n - buf.length)) = (file', chunk) := hread
    have hc : (if nc then (files[ci]).seekStart 0 else files[ci]).rest.take
        (n - buf.length) = chunk := by
      have := congrArg Prod.snd hread2
      simpa [Cursor.read] using this
    have hrest : (if nc then (files[ci]).data else (files[ci]).rest) = [] := by
      rw [hchunkNil] at hc
      rcases List.take_eq_nil_iff.mp hc with hm | hr
      · omega
      · cases nc <;> simpa [Cursor.seekStart, Cursor.rest] using hr
    have hlt : ci + 1 < files.length := by
      have hx := hns
      simp only [filesL, List.length_set, Nat.not_le] at hx
      exact hx
    have hRsame : restFrom (files.set ci file') (ci + 1) true = restFrom files ci nc := by
      rw [restFrom_true, List.drop_set_of_lt _ _ (Nat.lt_succ_self ci),
        restFrom_cons files ci nc h2, hrest]
      simp
    rw [readLoop_step files ci nc buf n h1 h2]
    simp only [hread2, hchunkNil, List.length_nil, List.length_set, eq_self_iff_true, if_true,
      if_neg (show ¬ files.length ≤ ci + 1 by omega)]
    have ihc := ih (fun _ => ⟨h1, by simpa [filesL] using hlt⟩)
    simp only [filesL] at ihc
    rw [hRsame] at ihc
    exact ihc
  | case3 files ci nc buf n h fileA fileB file' chunk hread filesL hchunk ih =>
    intro _
    have h1 := h.1
    have h2 := h.2
    have hread2 : ((if nc then (files[ci]).seekStart 0 else files[ci]).read
        (n - buf.length)) = (file', chunk) := hread
    have hc : (if nc then (files[ci]).seekStart 0 else files[ci]).rest.take
        (n - buf.length) = chunk := by
      have := congrArg Prod.snd hread2
      simpa [Cursor.read] using this
    have hCC : chunk = (if nc then (files[ci]).data else (files[ci]).rest).take
        (n - buf.length) := by
      rw [← hc]
      cases nc <;> simp [Cursor.seekStart, Cursor.rest]
    have hklen : chunk.length
        = min (n - buf.length) (if nc then (files[ci]).data else (files[ci]).rest).length := by
      rw [hCC]
      simp
    have hkm : chunk.length ≤ n - buf.length := by omega
    have hkCC : chunk.length
        ≤ (if nc then (files[ci]).data else (files[ci]).rest).length := by omega
    have hrest' : file'.rest
        = (if nc then (files[ci]).data else (files[ci]).rest).drop chunk.length := by
      have hf : ((if nc then (files[ci]).seekStart 0 else files[ci]).read
          (n - buf.length)).1 = file' := by rw [hread2]
      rw [← hf, ← hc]
      cases nc <;>
        simp [Cursor.read, Cursor.rest, Cursor.seekStart, List.drop_drop]
    have hRform : restFrom files ci nc
        = (if nc then (files[ci]).data else (files[ci]).rest)
          ++ ((files.drop (ci + 1)).map Cursor.data).flatten := restFrom_cons files ci nc h2
    have hchunkR : chunk = (restFrom files ci nc).take chunk.length := by
      rw [hRform, List.take_append_eq_append_take, Nat.sub_eq_zero_of_le hkCC]
      simp only [List.take_zero, List.append_nil]
      conv_lhs => rw [hCC]
      refine List.take_eq_take.mpr ?_
      omega
    have hRdropEq : restFrom (files.set ci file') ci false
        = (restFrom files ci nc).drop chunk.length := by
      rw [restFrom_cons _ ci false (by simpa using h2)]
      simp only [List.getElem_set_self, List.drop_set_of_lt _ _ (Nat.lt_succ_self ci)]
      rw [hrest', hRform, List.drop_append_eq_append_drop, Nat.sub_eq_zero_of_le hkCC]
      simp
    rw [readLoop_step files ci nc buf n h1 h2]
    simp only [hread2, if_neg hchunk]
    have ihc := ih (by simp)
    simp only [filesL] at ihc
    rw [hRdropEq] at ihc
    obtain ⟨ih1, ih2⟩ := ihc
    constructor
    · rw [ih1, List.append_assoc]
      congr 1
      have hlen2 : n - (buf ++ chunk).length = (n - buf.length) - chunk.length := by
        simp only [List.length_append]
        omega
      rw [hlen2]
      have htadd := List.take_add (restFrom files ci nc) chunk.length
        (n - buf.length - chunk.length)
      rw [Nat.add_sub_cancel' hkm] at htadd
      rw [htadd, ← hchunkR]
    · rw [ih2, List.drop_drop]
      congr 1
      simp only [List.length_append]
      omega
  | case4 files ci nc buf n h =>
    intro hnc
    rw [readLoop_exit files ci nc buf n h]
    rcases Nat.lt_or_ge buf.length n with hlt | hge
    · have hci : files.length ≤ ci := by
        rcases Nat.lt_or_ge ci files.length with hx | hx
        · exact absurd ⟨hlt, hx⟩ h
        · exact hx
      have hnc' : nc = false := by
        cases nc
        · rfl
        · exact absurd (hnc rfl) h
      rw [restFrom_of_length_le _ _ _ hci]
      simp [hnc']
      rw [restFrom_of_length_le _ _ _ hci]
    · have hm : n - buf.length = 0 := by omega
      have hnc' : nc = false := by
        cases nc
        · rfl
        · exact absurd (hnc rfl) h
      rw [hm, hnc']
      simp

/-- `Concat::read` realises `take`/`drop` on the logical remaining
stream. -/
theorem read_spec (c : ConcatC) (n : Nat) :
    (c.read n).2 = c.remaining.take n ∧ (c.read n).1.remaining = c.remaining.drop n := by
  have h := readLoop_spec c.files c.chunk_index false [] n (by simp)
  simp only [List.length_nil, Nat.sub_zero, List.nil_append] at h
  exact h

/-- Iterating `read` `k` times consumes `k * n` bytes of the remaining
stream. -/
theorem readChunks_spec (c : ConcatC) (n k : Nat) :
    ((c.readChunks n k).2).flatten = c.remaining.take (k * n) ∧
      (c.readChunks n k).1.remaining = c.remaining.drop (k * n) := by
  induction k generalizing c with
  | zero => simp [readChunks]
  | succ k ih =>
    have h1 := read_spec c n
    have h2 := ih (c.read n).1
    rw [h1.2] at h2
    constructor
    · show (c.read n).2 ++ ((((c.read n).1).readChunks n k).2).flatten = _
      rw [h2.1, h1.1, ← List.take_add]
      congr 1
      ring
    · show ((((c.read n).1).readChunks n k).1).remaining = _
      rw [h2.2, List.drop_drop]
      congr 1
      ring

theorem remaining_fresh (datas : List (List Byte)) :
    (fresh datas).remaining = datas.flatten := by
  cases datas with
  | nil => rfl
  | cons d ds =>
    simp only [fresh, remaining, restFrom, Cursor.rest, List.map_cons, List.drop_zero]
    simp [Function.comp_def]

end ConcatC

/-- Setting a list element to itself is the identity. -/
theorem list_set_self {α : Type} : ∀ (l : List α) (i : Nat), (∀ h : i < l.length, l.set i (l.get ⟨i, h⟩) = l)
  | [], _ => by intro h; simp at h
  | a :: l, 0 => by intro h; simp
  | a :: l, (i+1) => by
    intro h
    simp only [List.set_cons_succ, List.get_cons_succ]
    rw [list_set_self l i (by simpa using h)]

namespace ConcatC

/-- The range list produced by indexing sources with contents `ds`
starting at absolute offset `acc`. -/
def buildRanges : List (List Byte) → Nat → List (Nat × Nat)
  | [], _ => []
  | d :: ds, acc => (acc, acc + d.length) :: buildRanges ds (acc + d.length)

theorem buildRanges_length (ds : List (List Byte)) (acc : Nat) :
    (buildRanges ds acc).length = ds.length := by
  induction ds generalizing acc with
  | nil => rfl
  | cons d ds ih => simp [buildRanges, ih]

theorem buildRanges_lastEnd (ds : List (List Byte)) (acc : Nat) (h : ds ≠ []) :
    (((buildRanges ds acc).getLast?).getD (0, 0)).2 = acc + (ds.map List.length).sum := by
  induction ds generalizing acc with
  | nil => exact absurd rfl h
  | cons d ds ih =>
    cases ds with
    | nil => simp [buildRanges]
    | cons d2 ds2 =>
      rw [buildRanges, buildRanges, List.getLast?_cons_cons, ← buildRanges]
      rw [ih (acc + d.length) (by simp)]
      simp
      omega

theorem indexAll_eq_of_none (c : ConcatC) (hn : c.files[c.ranges.length]? = none) :
    c.indexAll = c := by
  rw [indexAll]
  split
  · rfl
  · rename_i file hsome
    rw [hn] at hsome
    exact Option.noConfusion hsome

theorem indexAll_eq_of_some (c : ConcatC) (file : Cursor)
    (hs : c.files[c.ranges.length]? = some file) :
    c.indexAll = indexAll { c with
      files := c.files.set c.ranges.length { file with pos := file.data.length },
      ranges := c.ranges ++ [(c.currentEnd, c.currentEnd + file.data.length)] } := by
  rw [indexAll]
  split
  · rename_i hnone
    rw [hs] at hnone
    exact Option.noConfusion hnone
  · rename_i f hsome
    rw [hs] at hsome
    injection hsome with he
    subst he
    rfl

theorem indexAll_ranges_aux : ∀ (k : Nat) (c : ConcatC),
    c.files.length - c.ranges.length ≤ k →
    c.indexAll.ranges
        = c.ranges ++ buildRanges ((c.files.drop c.ranges.length).map Cursor.data) c.currentEnd
      ∧ c.indexAll.files.map Cursor.data = c.files.map Cursor.data := by
  intro k
  induction k with
  | zero =>
    intro c hk
    have hlen : c.files.length ≤ c.ranges.length := by omega
    have hn : c.files[c.ranges.length]? = none := by
      rw [List.getElem?_eq_none_iff]
      omega
    rw [indexAll_eq_of_none c hn, List.drop_of_length_le hlen]
    simp [buildRanges]
  | succ k ih =>
    intro c hk
    cases hs : c.files[c.ranges.length]? with
    | none =>
      have hlen : c.files.length ≤ c.ranges.length := by
        have := List.getElem?_eq_none_iff.mp hs
        omega
      rw [indexAll_eq_of_none c hs, List.drop_of_length_le hlen]
      simp [buildRanges]
    | some file =>
      have hlt : c.ranges.length < c.files.length := (List.getElem?_eq_some_iff.mp hs).1
      have hfile : c.files[c.ranges.length] = file := by
        have := (List.getElem?_eq_some_iff.mp hs).2
        simpa using this
      rw [indexAll_eq_of_some c file hs]
      set c' : ConcatC := { c with
        files := c.files.set c.ranges.length { file with pos := file.data.length },
        ranges := c.ranges ++ [(c.currentEnd, c.currentEnd + file.data.length)] } with hc'
      have hmeas : c'.files.length - c'.ranges.length ≤ k := by
        simp only [hc', List.length_set, List.length_append, List.length_cons, List.length_nil]
        omega
      obtain ⟨ih1, ih2⟩ := ih c' hmeas
      have hlen' : c'.ranges.length = c.ranges.length + 1 := by
        simp [hc']
      have hce' : c'.currentEnd = c.currentEnd + file.data.length := by
        simp [hc', currentEnd]
      have hdropc' : c'.files.drop c'.ranges.length = c.files.drop (c.ranges.length + 1) := by
        rw [hlen']
        simp only [hc']
        exact List.drop_set_of_lt _ _ (Nat.lt_succ_self _)
      constructor
      · rw [ih1, hdropc', hce']
        have hdrop : c.files.drop c.ranges.length
            = c.files[c.ranges.length] :: c.files.drop (c.ranges.length + 1) :=
          List.drop_eq_getElem_cons hlt
        rw [hdrop, hfile, List.map_cons, buildRanges]
        simp only [hc']
        rw [List.append_assoc]
        simp
      · rw [ih2]
        simp only [hc', List.map_set]
        have hdata : ({ file with pos := file.data.length } : Cursor).data
            = (c.files.map Cursor.data).get ⟨c.ranges.length, by simpa using hlt⟩ := by
          simp [← hfile]
        rw [hdata]
        exact list_set_self _ _ (by simpa using hlt)

theorem indexAll_ranges (c : ConcatC) :
    c.indexAll.ranges
        = c.ranges ++ buildRanges ((c.files.drop c.ranges.length).map Cursor.data) c.currentEnd
      ∧ c.indexAll.files.map Cursor.data = c.files.map Cursor.data :=
  indexAll_ranges_aux _ c (Nat.le_refl _)

theorem indexAll_fresh_ranges (datas : List (List Byte)) :
    (fresh datas).indexAll.ranges = buildRanges datas 0 := by
  have h := (indexAll_ranges (fresh datas)).1
  simpa [fresh, currentEnd, List.map_map, Function.comp_def] using h

end ConcatC

/-- C9: `Concat::new` fails if and only if the source list is empty; on a
non-empty list it succeeds and performs no read or seek on any source: the
sources are stored verbatim (cursor positions untouched) and no range has
been discovered (`ranges = []`), all size discovery being deferred. -/
theorem concat_new_spec (files : List Cursor) :
    (files = [] → ConcatC.new files = .error "no files specified") ∧
      (files ≠ [] → ConcatC.new files
        = .ok { files := files, chunk_index := 0, offset := 0, ranges := [] }) := by
  constructor
  · intro h
    subst h
    rfl
  · intro h
    rw [ConcatC.new, if_neg (by simpa [List.isEmpty_iff] using h)]

/-- Witness for C9: the empty list errors, a singleton list succeeds with
the source untouched. -/
theorem concat_new_spec_witness :
    ConcatC.new [] = .error "no files specified" ∧
      ConcatC.new [⟨[1, 2], 0⟩]
        = .ok { files := [⟨[1, 2], 0⟩], chunk_index := 0, offset := 0, ranges := [] } :=
  ⟨(concat_new_spec []).1 rfl, (concat_new_spec [⟨[1, 2], 0⟩]).2 (by decide)⟩

theorem seek_fromEnd_def (c0 : ConcatC) (o : Int) :
    c0.seek (.fromEnd o)
      = (let c := c0.indexAll
         let length : Int := ((c.ranges.getLast?.getD (0, 0)).2 : Int)
         let no := length + o
         if no < 0 then
           (c, .error "ioutil::Concat: seek position resolves to a negative offset")
         else ConcatC.seekFinish c no.toNat) := rfl

/-- C7 counterexample: on a Concat of two 4-byte sources (total 8),
`seek(SeekFrom::End(8))` resolves to offset 16, strictly beyond the total,
yet succeeds with `Ok(16)` instead of returning an error — exactly the
behaviour the repository's own `seek_beyond_length` test expects. -/
theorem concat_seek_beyond_total_succeeds :
    ((ConcatC.fresh [[0, 0, 0, 0], [0, 0, 0, 0]]).seek (.fromEnd 8)).2 = .ok 16 ∧
      (([[0, 0, 0, 0], [0, 0, 0, 0]] : List (List Byte)).map List.length).sum < 16 := by
  have h1 : (ConcatC.fresh [[0, 0, 0, 0], [0, 0, 0, 0]]).indexAll
      = ConcatC.indexAll ⟨[⟨[0, 0, 0, 0], 4⟩, ⟨[0, 0, 0, 0], 0⟩], 0, 0, [(0, 4)]⟩ := by
    rw [ConcatC.indexAll_eq_of_some (ConcatC.fresh [[0, 0, 0, 0], [0, 0, 0, 0]])
      ⟨[0, 0, 0, 0], 0⟩ rfl]
    rfl
  have h2 : ConcatC.indexAll ⟨[⟨[0, 0, 0, 0], 4⟩, ⟨[0, 0, 0, 0], 0⟩], 0, 0, [(0, 4)]⟩
      = ConcatC.indexAll ⟨[⟨[0, 0, 0, 0], 4⟩, ⟨[0, 0, 0, 0], 4⟩], 0, 0, [(0, 4), (4, 8)]⟩ := by
    rw [ConcatC.indexAll_eq_of_some ⟨[⟨[0, 0, 0, 0], 4⟩, ⟨[0, 0, 0, 0], 0⟩], 0, 0, [(0, 4)]⟩
      ⟨[0, 0, 0, 0], 0⟩ rfl]
    rfl
  have h3 : ConcatC.indexAll ⟨[⟨[0, 0, 0, 0], 4⟩, ⟨[0, 0, 0, 0], 4⟩], 0, 0, [(0, 4), (4, 8)]⟩
      = ⟨[⟨[0, 0, 0, 0], 4⟩, ⟨[0, 0, 0, 0], 4⟩], 0, 0, [(0, 4), (4, 8)]⟩ :=
    ConcatC.indexAll_eq_of_none _ rfl
  have hidx := h1.trans (h2.trans h3)
  refine ⟨?_, by decide⟩
  rw [seek_fromEnd_def, hidx]
  rfl

/-- C7 (amended): `Concat::seek` resolves `Start`/`Current`/`End` to an
absolute offset, an `End`-relative seek forcing full size discovery of
every source; a seek whose resolved offset is negative returns an error,
while a resolved offset at or beyond the total size of all sources is not
an error: the seek succeeds and returns the resolved offset.  Stated for a
freshly constructed Concat (offset 0, nothing indexed). -/
theorem concat_seek_resolution (datas : List (List Byte)) (so : Nat) (o : Int)
    (hne : datas ≠ []) :
    ((ConcatC.fresh datas).seek (.start so)).2 = .ok so ∧
      ((ConcatC.fresh datas).seek (.current o)).2
        = (if (0 : Int) + o < 0 then
            .error "ioutil::Concat: seek position resolves to a negative offset"
          else .ok ((0 : Int) + o).toNat) ∧
      ((ConcatC.fresh datas).seek (.fromEnd o)).2
        = (if ((datas.map List.length).sum : Int) + o < 0 then
            .error "ioutil::Concat: seek position resolves to a negative offset"
          else .ok (((datas.map List.length).sum : Int) + o).toNat) ∧
      ((ConcatC.fresh datas).seek (.fromEnd o)).1.ranges.length = datas.length := by
  have hlast : (((ConcatC.fresh datas).indexAll.ranges.getLast?).getD (0, 0)).2
      = (datas.map List.length).sum := by
    rw [ConcatC.indexAll_fresh_ranges]
    simpa using ConcatC.buildRanges_lastEnd datas 0 hne
  refine ⟨rfl, ?_, ?_, ?_⟩
  · rw [ConcatC.seek]
    split
    · rename_i hneg
      rw [if_pos (by simpa [ConcatC.fresh] using hneg)]
    · rename_i hpos
      rw [if_neg (by simpa [ConcatC.fresh] using hpos)]
      rfl
  · rw [ConcatC.seek]
    simp only [hlast]
    split
    · rfl
    · rfl
  · rw [ConcatC.seek]
    simp only [hlast]
    have hrl : (ConcatC.fresh datas).indexAll.ranges.length = datas.length := by
      rw [ConcatC.indexAll_fresh_ranges, ConcatC.buildRanges_length]
    split
    · exact hrl
    · simpa [ConcatC.seekFinish] using hrl

/-- Witness for C7's amended theorem at a two-chunk Concat, seeking to
`Start(7)`, `Current(-3)` and `End(8)`. -/
theorem concat_seek_resolution_witness :
    ([[1, 2], [3]] : List (List Byte)) ≠ [] ∧
      ((ConcatC.fresh [[1, 2], [3]]).seek (.start 7)).2 = .ok 7 ∧
      ((ConcatC.fresh [[1, 2], [3]]).seek (.current (-3))).2
        = (if (0 : Int) + (-3) < 0 then
            .error "ioutil::Concat: seek position resolves to a negative offset"
          else .ok ((0 : Int) + (-3)).toNat) ∧
      ((ConcatC.fresh [[1, 2], [3]]).seek (.fromEnd (-3))).2
        = (if ((([[1, 2], [3]] : List (List Byte)).map List.length).sum : Int) + (-3) < 0 then
            .error "ioutil::Concat: seek position resolves to a negative offset"
          else .ok (((([[1, 2], [3]] : List (List Byte)).map List.length).sum : Int) + (-3)).toNat) ∧
      ((ConcatC.fresh [[1, 2], [3]]).seek (.fromEnd (-3))).1.ranges.length
        = ([[1, 2], [3]] : List (List Byte)).length :=
  ⟨by decide,
    (concat_seek_resolution [[1, 2], [3]] 7 (-3) (by decide)).1,
    (concat_seek_resolution [[1, 2], [3]] 7 (-3) (by decide)).2.1,
    (concat_seek_resolution [[1, 2], [3]] 7 (-3) (by decide)).2.2.1,
    (concat_seek_resolution [[1, 2], [3]] 7 (-3) (by decide)).2.2.2⟩

/-- C1: for every non-empty list of byte sources partitioning a byte
sequence into chunks of arbitrary sizes (empty chunks included) and every
buffer size `n ≥ 1`, repeatedly calling `Concat::read` reproduces the
original sequence byte-for-byte (iterating the read `total` times is
always enough to drain the stream); the next read then returns 0 bytes,
and more generally a read issued on any state at or past the total length
(nothing remaining) returns 0 bytes rather than an error — with cursor
sources `Concat::read` cannot fail at all, which the model reflects by
being total. -/
theorem concat_read_reproduces (datas : List (List Byte)) (n : Nat) (c : ConcatC)
    (hne : datas ≠ []) (hn : 1 ≤ n) (hc : c.remaining = []) :
    ((ConcatC.fresh datas).readChunks n datas.flatten.length).2.flatten = datas.flatten ∧
      (((ConcatC.fresh datas).readChunks n datas.flatten.length).1.read n).2 = [] ∧
      (c.read n).2 = [] := by
  have hfr : (ConcatC.fresh datas).remaining = datas.flatten :=
    ConcatC.remaining_fresh datas
  have hmain := ConcatC.readChunks_spec (ConcatC.fresh datas) n datas.flatten.length
  have htot : datas.flatten.length ≤ datas.flatten.length * n :=
    Nat.le_mul_of_pos_right _ hn
  refine ⟨?_, ?_, ?_⟩
  · rw [hmain.1, hfr]
    exact List.take_of_length_le htot
  · have hrem : (((ConcatC.fresh datas).readChunks n datas.flatten.length).1).remaining = [] := by
      rw [hmain.2, hfr]
      exact List.drop_of_length_le htot
    rw [(ConcatC.read_spec _ n).1, hrem]
    simp
  · rw [(ConcatC.read_spec _ n).1, hc]
    simp

/-- Witness for C1 at a concrete partition `[[1,2],[],[3,4,5]] `, buffer
size 2, and a concrete exhausted state. -/
theorem concat_read_reproduces_witness :
    (([[1, 2], [], [3, 4, 5]] : List (List Byte)) ≠ [] ∧ 1 ≤ 2 ∧
        (ConcatC.mk [⟨[1, 2], 2⟩] 0 2 []).remaining = []) ∧
      ((ConcatC.fresh [[1, 2], [], [3, 4, 5]]).readChunks 2
            ([[1, 2], [], [3, 4, 5]] : List (List Byte)).flatten.length).2.flatten
          = ([[1, 2], [], [3, 4, 5]] : List (List Byte)).flatten ∧
        (((ConcatC.fresh [[1, 2], [], [3, 4, 5]]).readChunks 2
            ([[1, 2], [], [3, 4, 5]] : List (List Byte)).flatten.length).1.read 2).2 = [] ∧
        ((ConcatC.mk [⟨[1, 2], 2⟩] 0 2 []).read 2).2 = [] :=
  ⟨⟨by decide, by decide, by decide⟩,
    concat_read_reproduces [[1, 2], [], [3, 4, 5]] 2 (ConcatC.mk [⟨[1, 2], 2⟩] 0 2 [])
      (by decide) (by decide) (by decide)⟩

/-! ## `ioutil::Skip` (src/ioutil/skip.rs)

`Skip<T>` instantiated at `T = Cursor`. -/

structure SkipC where
  inner : Cursor
  offset : Nat
  initial_skip : Bool
deriving DecidableEq, Repr

namespace SkipC

/-- `Skip::new`: stores the inner source and offset; no seek yet. -/
def new (inner : Cursor) (offset : Nat) : SkipC :=
  { inner := inner, offset := offset, initial_skip := false }

/-- `Skip::read`: on the first read ever (`initial_skip` still false) seek
the inner source to the skip offset, then read.  Cursor operations cannot
fail, so the result is total. -/
def read (s : SkipC) (n : Nat) : SkipC × List Byte :=
  let s := if s.initial_skip then s
    else { s with inner := s.inner.seekStart s.offset, initial_skip := true }
  let (c', out) := s.inner.read n
  ({ s with inner := c' }, out)

/-- `Skip::seek`: translate `Start` positions by the skip offset, pass
`Current`/`End` through, and report the inner position minus the offset.
Note that `initial_skip` is left untouched. -/
def seek (s : SkipC) (pos : SeekFrom) : SkipC × Except String Nat :=
  let new_pos := match pos with
    | .start o => SeekFrom.start (s.offset + o)
    | .fromEnd o => SeekFrom.fromEnd o
    | .current o => SeekFrom.current o
  let (c', r) := s.inner.seek new_pos
  ({ s with inner := c' }, r.map (fun p => p - s.offset))

end SkipC

/-- C6 (code bug): `Skip` is supposed to transparently add the fixed
offset `k` to every absolute position, with the initial seek to `k`
performed lazily on the first read.  But `Skip::seek` does not mark the
initial skip as done, so the *first* read unconditionally re-seeks the
inner stream to `k`, clobbering any position established by an explicit
seek.  On `Skip::new(Cursor(0..=15), 8)`, seeking to Skip-position 2
(which correctly reports inner position 10) and then reading one byte
returns the byte at absolute position 8 (value `8`) instead of position
`k + 2 = 10` (value `10`). -/
theorem skip_first_read_clobbers_seek :
    (((SkipC.new ⟨[0, 1, 2, 3, 4, 5, 6, 7, 8, 9, 10, 11, 12, 13, 14, 15], 0⟩ 8).seek
        (.start 2)).2 = .ok 2) ∧
      ((((SkipC.new ⟨[0, 1, 2, 3, 4, 5, 6, 7, 8, 9, 10, 11, 12, 13, 14, 15], 0⟩ 8).seek
          (.start 2)).1.read 1).2 = [8]) ∧
      [(8 : Byte)] ≠ [10] := by
  refine ⟨rfl, rfl, by decide⟩

/-! ## `ioutil::LazyOpen` (src/ioutil/lazyopen.rs)

`LazyOpen<O, T>` instantiated at `T = Cursor`, with the opener modelled as
a fixed result `openRes : Except String Cursor` (the `FnOnce` closure runs
at most once; `openCalls` counts its invocations).  The transient `Init`
state of the `mem::swap` dance is unobservable and not modelled. -/

inductive LState where
  | unopened
  | opened (c : Cursor)
  | errored (e : String)
deriving DecidableEq, Repr

structure LazyOpenC where
  st : LState
  size_hint : Option Nat
  size_hint_seek_dirty : Option SeekFrom
  openCalls : Nat
deriving DecidableEq, Repr

namespace LazyOpenC

/-- `LazyOpen::new`. -/
def new : LazyOpenC :=
  { st := .unopened, size_hint := none, size_hint_seek_dirty := none, openCalls := 0 }

/-- `LazyOpen::with_size_hint`. -/
def with_size_hint (hint : Nat) : LazyOpenC :=
  { st := .unopened, size_hint := some hint, size_hint_seek_dirty := none, openCalls := 0 }

/-- `LazyOpen::file_mut`: open on first use, remember and replay an open
error, reuse the opened resource afterwards. -/
def fileMut (openRes : Except String Cursor) (l : LazyOpenC) : LazyOpenC × Except String Unit :=
  match l.st with
  | .opened _ => (l, .ok ())
  | .errored e => (l, .error e)
  | .unopened =>
    match openRes with
    | .ok c => ({ l with st := .opened c, openCalls := l.openCalls + 1 }, .ok ())
    | .error e => ({ l with st := .errored e, openCalls := l.openCalls + 1 }, .error e)

/-- `LazyOpen::read`: replay a pending size-hint seek first (taking it),
then read from the opened resource. -/
def read (openRes : Except String Cursor) (l : LazyOpenC) (n : Nat) :
    LazyOpenC × Except String (List Byte) :=
  let dirty := l.size_hint_seek_dirty
  let l := { l with size_hint_seek_dirty := none }
  let step1 : LazyOpenC × Except String Unit :=
    match dirty with
    | none => (l, .ok ())
    | some pos =>
      let (l, r) := fileMut openRes l
      match r with
      | .error e => (l, .error e)
      | .ok () =>
        match l.st with
        | .opened c =>
          let (c', r) := c.seek pos
          ({ l with st := .opened c' }, r.map (fun _ => ()))
        | _ => (l, .error "unreachable")
  match step1 with
  | (l, .error e) => (l, .error e)
  | (l, .ok ()) =>
    let (l, r) := fileMut openRes l
    match r with
    | .error e => (l, .error e)
    | .ok () =>
      match l.st with
      | .opened c =>
        let (c', out) := c.read n
        ({ l with st := .opened c' }, .ok out)
      | _ => (l, .error "unreachable")

/-- `LazyOpen::seek`: a `seek(End(0))` with a size hint present answers
from the hint without opening, marking the hint-seek dirty; every other
seek opens the resource and seeks it. -/
def seek (openRes : Except String Cursor) (l : LazyOpenC) (pos : SeekFrom) :
    LazyOpenC × Except String Nat :=
  match l.size_hint with
  | some s =>
    if pos = .fromEnd 0 then
      ({ l with size_hint_seek_dirty := some pos }, .ok s)
    else goFile openRes l pos
  | none => goFile openRes l pos
where
  goFile (openRes : Except String Cursor) (l : LazyOpenC) (pos : SeekFrom) :
      LazyOpenC × Except String Nat :=
    let (l, r) := fileMut openRes l
    match r with
    | .error e => (l, .error e)
    | .ok () =>
      match l.st with
      | .opened c =>
        let (c', r) := c.seek pos
        ({ l with st := .opened c' }, r)
      | _ => (l, .error "unreachable")

/-- An operation on a `LazyOpen`. -/
inductive LOp where
  | read (n : Nat)
  | seek (pos : SeekFrom)
deriving DecidableEq, Repr

/-- Apply one operation, keeping only the state. -/
def applyOp (openRes : Except String Cursor) (l : LazyOpenC) : LOp → LazyOpenC
  | .read n => (read openRes l n).1
  | .seek pos => (seek openRes l pos).1

/-- Run a list of operations. -/
def runOps (openRes : Except String Cursor) (l : LazyOpenC) : List LOp → LazyOpenC
  | [] => l
  | op :: ops => runOps openRes (applyOp openRes l op) ops

/-- A seek that is satisfiable purely from the size hint: `seek(End(0))`
when a hint is present. -/
def hintSatisfiable (l : LazyOpenC) : LOp → Bool
  | .seek (.fromEnd 0) => l.size_hint.isSome
  | _ => false

end LazyOpenC

namespace LazyOpenC

/-- The opener-usage invariant: before the first use the counter is 0,
afterwards it is exactly 1. -/
def openInv (l : LazyOpenC) : Prop :=
  (l.st = .unopened ∧ l.openCalls = 0) ∨ (l.st ≠ .unopened ∧ l.openCalls = 1)

theorem fileMut_effect (o : Except String Cursor) (l : LazyOpenC) :
    ((fileMut o l).1.st = l.st ∧ (fileMut o l).1.openCalls = l.openCalls ∧ l.st ≠ .unopened) ∨
      (l.st = .unopened ∧ (fileMut o l).1.st ≠ .unopened ∧
        (fileMut o l).1.openCalls = l.openCalls + 1 ∧
        (fileMut o l).1.size_hint = l.size_hint ∧
        (fileMut o l).1.size_hint_seek_dirty = l.size_hint_seek_dirty) := by
  cases hst : l.st with
  | unopened =>
    cases o <;> simp [fileMut, hst]
  | opened c => simp [fileMut, hst]
  | errored e => simp [fileMut, hst]

/-- Effect of one operation on the open state and counter: either the
state machine is untouched, or the first open happens (from `unopened`),
or an already-opened resource is updated in place. -/
theorem applyOp_effect (o : Except String Cursor) (l : LazyOpenC) (op : LOp) :
    ((applyOp o l op).st = l.st ∧ (applyOp o l op).openCalls = l.openCalls) ∨
      (l.st = .unopened ∧ (applyOp o l op).st ≠ .unopened ∧
        (applyOp o l op).openCalls = l.openCalls + 1) ∨
      (∃ c c', l.st = .opened c ∧ (applyOp o l op).st = .opened c' ∧
        (applyOp o l op).openCalls = l.openCalls) := by
  obtain ⟨st, sh, dirty, oc⟩ := l
  cases op with
  | read n =>
    cases dirty with
    | none =>
      cases st with
      | unopened =>
        cases o with
        | ok c => simp [applyOp, read, fileMut]
        | error e => simp [applyOp, read, fileMut]
      | opened c =>
        right; right
        refine ⟨c, (c.read n).1, rfl, ?_, ?_⟩ <;> simp [applyOp, read, fileMut]
      | errored e => simp [applyOp, read, fileMut]
    | some pos =>
      cases st with
      | unopened =>
        cases o with
        | ok c =>
          rcases hseek : c.seek pos with ⟨c2, r2⟩
          cases r2 <;> simp [applyOp, read, fileMut, hseek, Except.map]
        | error e => simp [applyOp, read, fileMut]
      | opened c =>
        right; right
        rcases hseek : c.seek pos with ⟨c2, r2⟩
        cases r2 with
        | error e =>
          refine ⟨c, c2, rfl, ?_, ?_⟩ <;> simp [applyOp, read, fileMut, hseek, Except.map]
        | ok v =>
          refine ⟨c, (c2.read n).1, rfl, ?_, ?_⟩ <;>
            simp [applyOp, read, fileMut, hseek, Except.map]
      | errored e => simp [applyOp, read, fileMut]
  | seek pos =>
    by_cases hp : pos = SeekFrom.fromEnd 0
    · cases sh with
      | some s =>
        subst hp
        left
        simp [applyOp, seek]
      | none =>
        subst hp
        cases st with
        | unopened =>
          cases o with
          | ok c => simp [applyOp, seek, seek.goFile, fileMut]
          | error e => simp [applyOp, seek, seek.goFile, fileMut]
        | opened c =>
          right; right
          refine ⟨c, (Cursor.seek c (SeekFrom.fromEnd 0)).1, rfl, ?_, ?_⟩ <;>
            simp [applyOp, seek, seek.goFile, fileMut]
        | errored e => simp [applyOp, seek, seek.goFile, fileMut]
    · have hgo : applyOp o ⟨st, sh, dirty, oc⟩ (LOp.seek pos)
          = (seek.goFile o ⟨st, sh, dirty, oc⟩ pos).1 := by
        cases sh with
        | some s => simp [applyOp, seek, hp]
        | none => simp [applyOp, seek]
      rw [hgo]
      cases st with
      | unopened =>
        cases o with
        | ok c => simp [seek.goFile, fileMut]
        | error e => simp [seek.goFile, fileMut]
      | opened c =>
        right; right
        refine ⟨c, (Cursor.seek c pos).1, rfl, ?_, ?_⟩ <;> simp [seek.goFile, fileMut]
      | errored e => simp [seek.goFile, fileMut]

theorem applyOp_openInv (o : Except String Cursor) (l : LazyOpenC) (op : LOp)
    (h : openInv l) : openInv (applyOp o l op) := by
  rcases applyOp_effect o l op with ⟨h1, h2⟩ | ⟨h1, h2, h3⟩ | ⟨c, c', h1, h2, h3⟩ <;>
    unfold openInv at h ⊢ <;>
    rcases h with ⟨ha, hb⟩ | ⟨ha, hb⟩ <;> simp_all

theorem runOps_openInv (o : Except String Cursor) (ops : List LOp) (l : LazyOpenC)
    (h : openInv l) : openInv (runOps o l ops) := by
  induction ops generalizing l with
  | nil => exact h
  | cons op ops ih => exact ih _ (applyOp_openInv o l op h)

theorem runOps_hint_only (o : Except String Cursor) (ops : List LOp) (l : LazyOpenC)
    (s : Nat) (hsh : l.size_hint = some s)
    (hops : ∀ x ∈ ops, x = LOp.seek (.fromEnd 0)) :
    (runOps o l ops).openCalls = l.openCalls ∧ (runOps o l ops).st = l.st := by
  induction ops generalizing l with
  | nil => exact ⟨rfl, rfl⟩
  | cons op ops ih =>
    have hop := hops op (by simp)
    subst hop
    have happ : applyOp o l (LOp.seek (.fromEnd 0))
        = { l with size_hint_seek_dirty := some (.fromEnd 0) } := by
      simp [applyOp, seek, hsh]
    have hrun : runOps o l (LOp.seek (.fromEnd 0) :: ops)
        = runOps o { l with size_hint_seek_dirty := some (.fromEnd 0) } ops := by
      show runOps o (applyOp o l (LOp.seek (.fromEnd 0))) ops = _
      rw [happ]
    rw [hrun]
    exact ih { l with size_hint_seek_dirty := some (.fromEnd 0) } hsh
      (fun x hx => hops x (by simp [hx]))

/-- Whether the lazy-open state machine holds an opened resource. -/
def isOpened : LState → Bool
  | .opened _ => true
  | _ => false

end LazyOpenC

/-- C3: for every `LazyOpen`, (1) over any sequence of operations from a
fresh instance the opener is invoked at most once; (2) as long as only
seeks satisfiable purely from the size hint (`seek(End(0))` with a hint
present) are issued, the opener is not invoked at all — no call is made
until the first read or a seek that the hint cannot answer; (3) once the
resource is opened, every further operation keeps it open and reuses it,
never invoking the opener again. -/
theorem lazyopen_opener_at_most_once (openRes : Except String Cursor)
    (hint : Option Nat) (ops lazyOps : List LazyOpenC.LOp) (l : LazyOpenC)
    (op : LazyOpenC.LOp) (c : Cursor) (s : Nat)
    (hlazy : ∀ x ∈ lazyOps, x = LazyOpenC.LOp.seek (.fromEnd 0))
    (hopened : l.st = .opened c) :
    (LazyOpenC.runOps openRes ⟨.unopened, hint, none, 0⟩ ops).openCalls ≤ 1 ∧
      (LazyOpenC.runOps openRes ⟨.unopened, some s, none, 0⟩ lazyOps).openCalls = 0 ∧
      (LazyOpenC.isOpened (LazyOpenC.applyOp openRes l op).st = true ∧
        (LazyOpenC.applyOp openRes l op).openCalls = l.openCalls) := by
  refine ⟨?_, ?_, ?_⟩
  · have h := LazyOpenC.runOps_openInv openRes ops ⟨.unopened, hint, none, 0⟩
      (Or.inl ⟨rfl, rfl⟩)
    rcases h with ⟨_, h2⟩ | ⟨_, h2⟩ <;> omega
  · exact (LazyOpenC.runOps_hint_only openRes lazyOps ⟨.unopened, some s, none, 0⟩ s
      rfl hlazy).1
  · rcases LazyOpenC.applyOp_effect openRes l op with ⟨h1, h2⟩ | ⟨h1, _, _⟩ |
      ⟨c0, c', h1, h2, h3⟩
    · exact ⟨by rw [h1, hopened]; rfl, h2⟩
    · rw [hopened] at h1
      exact absurd h1 (by simp)
    · exact ⟨by rw [h2]; rfl, h3⟩

/-- Witness for C3: a mixed operation sequence, a pure hint-probe
sequence, and one read on an already-opened instance. -/
theorem lazyopen_opener_at_most_once_witness :
    (∀ x ∈ [LazyOpenC.LOp.seek (.fromEnd 0), LazyOpenC.LOp.seek (.fromEnd 0)],
        x = LazyOpenC.LOp.seek (.fromEnd 0)) ∧
      (LazyOpenC.mk (.opened ⟨[3], 1⟩) none none 1).st = .opened ⟨[3], 1⟩ ∧
      (LazyOpenC.runOps (.ok ⟨[1, 2], 0⟩) ⟨.unopened, some 5, none, 0⟩
          [LazyOpenC.LOp.read 1, LazyOpenC.LOp.seek (.start 0)]).openCalls ≤ 1 ∧
      (LazyOpenC.runOps (.ok ⟨[1, 2], 0⟩) ⟨.unopened, some 5, none, 0⟩
          [LazyOpenC.LOp.seek (.fromEnd 0), LazyOpenC.LOp.seek (.fromEnd 0)]).openCalls = 0 ∧
      (LazyOpenC.isOpened (LazyOpenC.applyOp (.ok ⟨[1, 2], 0⟩)
          (LazyOpenC.mk (.opened ⟨[3], 1⟩) none none 1) (.read 1)).st = true ∧
        (LazyOpenC.applyOp (.ok ⟨[1, 2], 0⟩)
          (LazyOpenC.mk (.opened ⟨[3], 1⟩) none none 1) (.read 1)).openCalls
          = (LazyOpenC.mk (.opened ⟨[3], 1⟩) none none 1).openCalls) :=
  ⟨by decide, rfl,
    (lazyopen_opener_at_most_once (.ok ⟨[1, 2], 0⟩) (some 5)
      [LazyOpenC.LOp.read 1, LazyOpenC.LOp.seek (.start 0)]
      [LazyOpenC.LOp.seek (.fromEnd 0), LazyOpenC.LOp.seek (.fromEnd 0)]
      (LazyOpenC.mk (.opened ⟨[3], 1⟩) none none 1) (.read 1) ⟨[3], 1⟩ 5
      (by decide) rfl).1,
    (lazyopen_opener_at_most_once (.ok ⟨[1, 2], 0⟩) (some 5)
      [LazyOpenC.LOp.read 1, LazyOpenC.LOp.seek (.start 0)]
      [LazyOpenC.LOp.seek (.fromEnd 0), LazyOpenC.LOp.seek (.fromEnd 0)]
      (LazyOpenC.mk (.opened ⟨[3], 1⟩) none none 1) (.read 1) ⟨[3], 1⟩ 5
      (by decide) rfl).2.1,
    (lazyopen_opener_at_most_once (.ok ⟨[1, 2], 0⟩) (some 5)
      [LazyOpenC.LOp.read 1, LazyOpenC.LOp.seek (.start 0)]
      [LazyOpenC.LOp.seek (.fromEnd 0), LazyOpenC.LOp.seek (.fromEnd 0)]
      (LazyOpenC.mk (.opened ⟨[3], 1⟩) none none 1) (.read 1) ⟨[3], 1⟩ 5
      (by decide) rfl).2.2⟩

/-- C10: on a `LazyOpen` with a size hint, `seek(End(0))` returns the hint
unconditionally — also after the resource has been opened and whatever the
resource's actual length — without touching the resource at all (the state
is unchanged except for the dirty marker, so the opened cursor is never
queried for its size); every other seek form (`Start`, `Current`, and
`End` with nonzero offset) goes to the underlying resource: it is
forwarded to the opened cursor. -/
theorem lazyopen_end0_returns_hint (openRes : Except String Cursor) (l : LazyOpenC)
    (s : Nat) (pos : SeekFrom) (c : Cursor)
    (hs : l.size_hint = some s) (hpos : pos ≠ .fromEnd 0) (hoc : l.st = .opened c) :
    LazyOpenC.seek openRes l (.fromEnd 0)
        = ({ l with size_hint_seek_dirty := some (.fromEnd 0) }, .ok s) ∧
      (LazyOpenC.seek openRes l pos).1.st = .opened (c.seek pos).1 ∧
      (LazyOpenC.seek openRes l pos).2 = (c.seek pos).2 := by
  constructor
  · simp [LazyOpenC.seek, hs]
  · have hgo : LazyOpenC.seek openRes l pos = LazyOpenC.seek.goFile openRes l pos := by
      simp [LazyOpenC.seek, hs, hpos]
    rw [hgo]
    constructor <;> simp [LazyOpenC.seek.goFile, LazyOpenC.fileMut, hoc]

/-- Witness for C10: hint 100 on an already-opened 4-byte cursor;
`End(0)` answers 100 without touching the cursor, `Start(2)` reaches
it. -/
theorem lazyopen_end0_returns_hint_witness :
    ((LazyOpenC.mk (.opened ⟨[1, 2, 3, 4], 0⟩) (some 100) none 1).size_hint = some 100 ∧
        (SeekFrom.start 2) ≠ SeekFrom.fromEnd 0 ∧
        (LazyOpenC.mk (.opened ⟨[1, 2, 3, 4], 0⟩) (some 100) none 1).st
          = .opened ⟨[1, 2, 3, 4], 0⟩) ∧
      LazyOpenC.seek (.ok ⟨[9], 0⟩)
          (LazyOpenC.mk (.opened ⟨[1, 2, 3, 4], 0⟩) (some 100) none 1) (.fromEnd 0)
        = ({ st := .opened ⟨[1, 2, 3, 4], 0⟩, size_hint := some 100,
             size_hint_seek_dirty := some (.fromEnd 0), openCalls := 1 }, .ok 100) ∧
      (LazyOpenC.seek (.ok ⟨[9], 0⟩)
          (LazyOpenC.mk (.opened ⟨[1, 2, 3, 4], 0⟩) (some 100) none 1) (.start 2)).1.st
        = .opened ((Cursor.mk [1, 2, 3, 4] 0).seek (.start 2)).1 ∧
      (LazyOpenC.seek (.ok ⟨[9], 0⟩)
          (LazyOpenC.mk (.opened ⟨[1, 2, 3, 4], 0⟩) (some 100) none 1) (.start 2)).2
        = ((Cursor.mk [1, 2, 3, 4] 0).seek (.start 2)).2 :=
  ⟨⟨rfl, by decide, rfl⟩,
    (lazyopen_end0_returns_hint (.ok ⟨[9], 0⟩)
      (LazyOpenC.mk (.opened ⟨[1, 2, 3, 4], 0⟩) (some 100) none 1) 100 (.start 2)
      ⟨[1, 2, 3, 4], 0⟩ rfl (by decide) rfl).1,
    (lazyopen_end0_returns_hint (.ok ⟨[9], 0⟩)
      (LazyOpenC.mk (.opened ⟨[1, 2, 3, 4], 0⟩) (some 100) none 1) 100 (.start 2)
      ⟨[1, 2, 3, 4], 0⟩ rfl (by decide) rfl).2.1,
    (lazyopen_end0_returns_hint (.ok ⟨[9], 0⟩)
      (LazyOpenC.mk (.opened ⟨[1, 2, 3, 4], 0⟩) (some 100) none 1) 100 (.start 2)
      ⟨[1, 2, 3, 4], 0⟩ rfl (by decide) rfl).2.2⟩

/-! ## `soundcloud::util::http::RangeSeeker` (src/soundcloud/util/http.rs)

The remote resource is an honest HTTP server serving `srv.data` with
byte-range requests: a request `bytes=o-` is answered `200 OK` at `o = 0`,
`206 Partial Content` at `0 < o < len`, and `416 Range Not Satisfiable` at
`o ≥ len`, always with a correct `Content-Length`.  A response is modelled
by its remaining body bytes.  State methods return the mutated state also
on the error paths, mirroring `&mut self`. -/

structure Srv where
  data : List Byte
deriving DecidableEq, Repr

inductive RState where
  | noResponse
  | response (body : List Byte)
  | outOfRange
deriving DecidableEq, Repr

structure RS where
  num_requests : Nat
  state : RState
  current_offset : Nat
  content_length : Option Nat
  response_cache : Option (List Byte × Nat)
deriving DecidableEq, Repr

namespace RS

/-- `RangeSeeker::new`. -/
def new : RS :=
  { num_requests := 0, state := .noResponse, current_offset := 0,
    content_length := none, response_cache := none }

/-- `valid_offset`: negative resolved offsets are an error. -/
def validOffset (offset : Int) : Except String Nat :=
  if offset < 0 then .error "http::RangeSeeker: can not seek to a negative offset"
  else .ok offset.toNat

/-- `RangeSeeker::next_resp`: issue `bytes=<current_offset>-`.  On `416`
the code retries once at offset 0 (a recursive `next_resp` call), keeps
that response's content length, marks the state `OutOfRange` and restores
the offset.  When the resource is empty the retry at offset 0 receives
`416` again and the Rust code recurses without bound, issuing requests
forever; the model returns an error for that (unreachable-in-practice)
case after the second request. -/
def nextResp (srv : Srv) (rs : RS) : RS × Except String Unit :=
  let L := srv.data.length
  let rs1 := { rs with num_requests := rs.num_requests + 1 }
  if L ≤ rs.current_offset then
    -- 416: retry from offset 0 (the recursive call issues one more request)
    let rs2 := { rs1 with current_offset := 0, num_requests := rs1.num_requests + 1 }
    if L = 0 then
      ({ rs2 with state := .noResponse }, .error "diverges: 416 at offset 0")
    else
      -- the inner call at offset 0 gets 200 OK with the full body
      let rs3 := { rs2 with content_length := some L, state := .response srv.data }
      ({ rs3 with state := .outOfRange, current_offset := rs.current_offset }, .ok ())
  else
    -- 200 OK (offset 0) or 206 Partial Content, Content-Length = L - offset
    let clen := L - rs.current_offset
    ({ rs1 with content_length := some (rs.current_offset + clen),
                state := .response (srv.data.drop rs.current_offset) }, .ok ())

/-- `RangeSeeker::read`: drop the cache, answer 0 bytes at or past the
known content length, otherwise make sure a response is open and drain it
(the inner loop reads until the buffer is full or the response is
exhausted, which on a byte-list body is a single `take`). -/
def read (srv : Srv) (rs : RS) (n : Nat) : RS × Except String (List Byte) :=
  let rs := { rs with response_cache := none }
  let gate : Bool := match rs.content_length with
    | some l => decide (l ≤ rs.current_offset)
    | none => false
  if gate then (rs, .ok [])
  else
    let (rs, r) := match rs.state with
      | .noResponse => nextResp srv rs
      | _ => (rs, .ok ())
    match r with
    | .error e => (rs, .error e)
    | .ok () =>
      match rs.state with
      | .response body =>
        let chunk := body.take n
        ({ rs with state := .response (body.drop n),
                   current_offset := rs.current_offset + chunk.length }, .ok chunk)
      | .outOfRange => (rs, .ok [])
      | .noResponse => (rs, .error "unreachable")

/-- The body of `RangeSeeker::seek`'s `if self.current_offset !=
abs_offset` block: swap the state for `new_state`, revive a cached
response whose key matches the target, stash the previous open response
keyed by the previous offset (the offset at which its remaining bytes
start), and move to `abs`. -/
def seekRetarget (rs : RS) (new_state : RState) (abs : Nat) : RS :=
  let old_state := rs.state
  let rs := { rs with state := new_state }
  let previous_offset := rs.current_offset
  let previous_response : Option (List Byte) := match old_state with
    | .response b => some b
    | _ => none
  let rs :=
    if (rs.response_cache.map Prod.snd) = some abs then
      { rs with state := .response (rs.response_cache.getD ([], 0)).1,
                response_cache := none }
    else rs
  let rs := match previous_response with
    | some b => { rs with response_cache := some (b, previous_offset) }
    | none => rs
  { rs with current_offset := abs }

/-- `RangeSeeker::seek`: resolve the absolute offset (an `End`-relative
seek with unknown content length first issues a size probe via
`next_resp`); when the target differs from the current offset, retarget
via `seekRetarget`, resetting the state (`OutOfRange` for `End(0)`, else
`NoResponse`). -/
def seek (srv : Srv) (rs : RS) (pos : SeekFrom) : RS × Except String Nat :=
  let resolved : RS × Except String Nat :=
    match pos with
    | .start o => (rs, .ok o)
    | .fromEnd o =>
      let (rs, r) := match rs.content_length with
        | none => nextResp srv rs
        | some _ => (rs, .ok ())
      match r with
      | .error e => (rs, .error e)
      | .ok () => (rs, validOffset ((rs.content_length.getD 0 : Int) + o))
    | .current o => (rs, validOffset ((rs.current_offset : Int) + o))
  match resolved with
  | (rs, .error e) => (rs, .error e)
  | (rs, .ok abs) =>
    let new_state : RState := if pos = .fromEnd 0 then .outOfRange else .noResponse
    if rs.current_offset ≠ abs then (seekRetarget rs new_state abs, .ok abs)
    else ({ rs with current_offset := abs }, .ok abs)

end RS

namespace RS

/-- A read finding an open response never issues a request. -/
theorem read_response_no_request (srv : Srv) (rs : RS) (n : Nat) (b : List Byte)
    (h : rs.state = .response b) :
    (read srv rs n).1.num_requests = rs.num_requests := by
  unfold read
  cases hcl : rs.content_length with
  | none => simp [h]
  | some l =>
    by_cases hg : l ≤ rs.current_offset
    · simp [hg]
    · simp [hg, h]

/-- Retargeting with a previously stashed response whose key matches the
target revives it as the current response. -/
theorem seekRetarget_revive (rs : RS) (ns : RState) (a : Nat) (b2 : List Byte)
    (h : rs.response_cache = some (b2, a)) :
    (seekRetarget rs ns a).state = .response b2 := by
  cases hst : rs.state <;> simp [seekRetarget, h, hst]

/-- Retargeting away from an open response stashes it keyed by the
current offset. -/
theorem seekRetarget_stash (rs : RS) (ns : RState) (a : Nat) (b : List Byte)
    (h : rs.state = .response b) :
    (seekRetarget rs ns a).response_cache = some (b, rs.current_offset) := by
  simp [seekRetarget, h]

/-- Retargeting issues no request and keeps the known content length. -/
theorem seekRetarget_fields (rs : RS) (ns : RState) (a : Nat) :
    (seekRetarget rs ns a).num_requests = rs.num_requests ∧
      (seekRetarget rs ns a).content_length = rs.content_length := by
  cases hst : rs.state <;> constructor <;> simp [seekRetarget, hst] <;> split <;> rfl

/-- C4: whenever a seek that needs no size probe (`Start`/`Current`, or
`End` with the content length already known) resolves to a target `a`
different from the current offset: (1) it succeeds returning `a`; (2) the
current open response, if any, is stashed in the single-slot cache keyed
by the current offset — the offset at which the stashed response's
remaining bytes start; (3) if the cached entry's key equals `a`, the
cached response is revived as the current response, no request is issued
by the seek, and the next read issues zero additional HTTP requests. -/
theorem rangeseeker_stash_and_revive (srv : Srv) (rs : RS) (pos : SeekFrom)
    (a n : Nat) (b b2 : List Byte)
    (hnr : match pos with
      | .fromEnd _ => rs.content_length.isSome = true
      | _ => True)
    (habs : (match pos with
      | .start o => Except.ok o
      | .fromEnd o => validOffset ((rs.content_length.getD 0 : Int) + o)
      | .current o => validOffset ((rs.current_offset : Int) + o)) = Except.ok a)
    (hne : rs.current_offset ≠ a) :
    ((seek srv rs pos).2 = .ok a) ∧
      (rs.state = .response b →
        (seek srv rs pos).1.response_cache = some (b, rs.current_offset)) ∧
      (rs.response_cache = some (b2, a) →
        (seek srv rs pos).1.state = .response b2 ∧
          (seek srv rs pos).1.num_requests = rs.num_requests ∧
          (read srv (seek srv rs pos).1 n).1.num_requests = rs.num_requests) := by
  have hseek : seek srv rs pos =
      (seekRetarget rs (if pos = .fromEnd 0 then .outOfRange else .noResponse) a,
        .ok a) := by
    cases pos with
    | start o =>
      have ha : o = a := by simpa using habs
      subst ha
      simp only [seek]
      rw [if_pos hne]
    | current o =>
      have habs2 : validOffset ((rs.current_offset : Int) + o) = Except.ok a := by
        simpa using habs
      rw [seek]
      split
      · exfalso
        simp_all
      · rename_i res rsx heq2
        injection heq2 with h1 h2
        subst h1
        rw [habs2] at h2
        injection h2 with h3
        subst h3
        simp only [if_pos hne]
        try rfl
    | fromEnd o =>
      have hsome : ∃ l, rs.content_length = some l := by
        cases hcl : rs.content_length with
        | none => rw [hcl] at hnr; simp at hnr
        | some l => exact ⟨l, rfl⟩
      obtain ⟨l, hl⟩ := hsome
      have habs2 : validOffset ((l : Int) + o) = Except.ok a := by
        have := habs
        simp only [hl, Option.getD_some] at this
        simpa using this
      rw [seek]
      simp only [hl, Option.getD_some]
      split
      · exfalso
        simp_all
      · rename_i res rsx heq2
        injection heq2 with h1 h2
        subst h1
        rw [habs2] at h2
        injection h2 with h3
        subst h3
        simp only [if_pos hne, ← hl]
        try rfl
  refine ⟨?_, ?_, ?_⟩
  · rw [hseek]
  · intro hb
    rw [hseek]
    exact seekRetarget_stash rs _ a b hb
  · intro hcache
    have hstate : (seek srv rs pos).1.state = .response b2 := by
      rw [hseek]
      exact seekRetarget_revive rs _ a b2 hcache
    have hnum : (seek srv rs pos).1.num_requests = rs.num_requests := by
      rw [hseek]
      exact (seekRetarget_fields rs _ a).1
    exact ⟨hstate, hnum, by rw [read_response_no_request srv _ n b2 hstate, hnum]⟩
end RS

namespace RS

theorem nextResp_num_le (srv : Srv) (rs : RS) :
    (nextResp srv rs).1.num_requests ≤ rs.num_requests + 2 := by
  rw [nextResp]
  split
  · split <;> simp
  · simp

theorem nextResp_success (srv : Srv) (rs : RS) (hL : 1 ≤ srv.data.length) :
    (nextResp srv rs).2 = .ok () ∧
      (nextResp srv rs).1.content_length = some srv.data.length := by
  rw [nextResp]
  split
  · rw [if_neg (by omega)]
    exact ⟨rfl, rfl⟩
  · rename_i hlt
    refine ⟨rfl, ?_⟩
    have h2 : rs.current_offset + (srv.data.length - rs.current_offset)
        = srv.data.length := by omega
    simpa using h2

theorem nextResp_success_one (srv : Srv) (rs : RS)
    (h : rs.current_offset < srv.data.length) :
    (nextResp srv rs).1.num_requests = rs.num_requests + 1 := by
  rw [nextResp]
  rw [if_neg (by omega)]

theorem read_num_le (srv : Srv) (rs : RS) (n : Nat) :
    (read srv rs n).1.num_requests ≤ rs.num_requests + 2 := by
  rw [read]
  split
  · simp
  · cases hst : rs.state with
    | noResponse =>
      have hb := nextResp_num_le srv
        { rs with state := RState.noResponse, response_cache := none }
      simp only [hst]
      split
      · simpa using hb
      · split <;> simpa using hb
    | response b => simp [hst]
    | outOfRange => simp [hst]

end RS

namespace RS

theorem read_num_le_one (srv : Srv) (rs : RS) (n : Nat)
    (hclen : rs.content_length = some srv.data.length) :
    (read srv rs n).1.num_requests ≤ rs.num_requests + 1 := by
  rw [read]
  split
  · simp
  · rename_i hgate
    have hofs : rs.current_offset < srv.data.length := by
      simp only [hclen] at hgate
      simp at hgate
      omega
    cases hst : rs.state with
    | noResponse =>
      have h1 := nextResp_success_one srv
        { rs with state := RState.noResponse, response_cache := none } (by simpa using hofs)
      have h2 := (nextResp_success srv
        { rs with state := RState.noResponse, response_cache := none } (by omega)).1
      simp only [hst]
      split
      · rename_i e heq
        rw [h2] at heq
        exact absurd heq (by simp)
      · split <;> simp [h1]
    | response b => simp [hst]
    | outOfRange => simp [hst]

end RS

namespace RS

theorem seek_num_cases (srv : Srv) (rs : RS) (pos : SeekFrom) (hL : 1 ≤ srv.data.length) :
    ((seek srv rs pos).1.num_requests = rs.num_requests ∧
        (seek srv rs pos).1.content_length = rs.content_length) ∨
      ((seek srv rs pos).1.num_requests ≤ rs.num_requests + 2 ∧
        (seek srv rs pos).1.content_length = some srv.data.length) := by
  cases pos with
  | start o =>
    left
    rw [seek]
    split
    · exact seekRetarget_fields rs _ o
    · exact ⟨rfl, rfl⟩
  | current o =>
    left
    rw [seek]
    split
    · rename_i rsx e heq
      injection heq with h1 h2
      subst h1
      exact ⟨rfl, rfl⟩
    · rename_i rsx a heq
      injection heq with h1 h2
      subst h1
      by_cases hceq : rs.current_offset ≠ a
      · simp only [if_pos hceq]
        exact seekRetarget_fields rs _ _
      · simp only [if_neg hceq]
        refine ⟨?_, ?_⟩ <;> first | rfl | trivial
  | fromEnd o =>
    cases hcl : rs.content_length with
    | some l =>
      left
      rw [seek]
      simp only [hcl, Option.getD_some]
      split
      · rename_i rsx e heq
        injection heq with h1 h2
        subst h1
        refine ⟨?_, ?_⟩ <;> first | rfl | trivial
      · rename_i rsx a heq
        injection heq with h1 h2
        subst h1
        by_cases hceq : rs.current_offset ≠ a
        · simp only [if_pos hceq]
          exact ⟨(seekRetarget_fields rs _ a).1, ((seekRetarget_fields rs _ a).2).trans hcl⟩
        · simp only [if_neg hceq]
          refine ⟨?_, ?_⟩ <;> first | rfl | trivial
    | none =>
      right
      rw [seek]
      simp only [hcl]
      rcases hnr2 : nextResp srv rs with ⟨rs2, r2⟩
      have hsucc := nextResp_success srv rs hL
      have hnum := nextResp_num_le srv rs
      rw [hnr2] at hsucc hnum
      obtain ⟨hok, hclen2⟩ := hsucc
      simp only at hok hclen2 hnum
      subst hok
      split
      · rename_i rsx e heq
        injection heq with h1 h2
        subst h1
        exact ⟨hnum, hclen2⟩
      · rename_i rsx a heq
        injection heq with h1 h2
        subst h1
        by_cases hceq : rs2.current_offset ≠ a
        · simp only [if_pos hceq]
          refine ⟨?_, ?_⟩
          · rw [(seekRetarget_fields rs2 _ _).1]
            exact hnum
          · rw [(seekRetarget_fields rs2 _ _).2]
            exact hclen2
        · simp only [if_neg hceq]
          exact ⟨hnum, hclen2⟩

end RS

/-- Witness for C4: a seeker positioned at offset 2 with an open response
`[3,4]`, a stashed response `[2,3,4]` keyed at offset 1, seeking to
`Start(1)`. -/
theorem rangeseeker_stash_and_revive_witness :
    ((RS.mk 1 (.response [3, 4]) 2 (some 4) (some ([2, 3, 4], 1))).current_offset ≠ 1) ∧
      ((RS.seek ⟨[1, 2, 3, 4]⟩
          (RS.mk 1 (.response [3, 4]) 2 (some 4) (some ([2, 3, 4], 1))) (.start 1)).2
        = .ok 1) ∧
      ((RS.mk 1 (.response [3, 4]) 2 (some 4) (some ([2, 3, 4], 1))).state
          = .response [3, 4] →
        (RS.seek ⟨[1, 2, 3, 4]⟩
            (RS.mk 1 (.response [3, 4]) 2 (some 4) (some ([2, 3, 4], 1))) (.start 1)).1.response_cache
          = some ([3, 4], (RS.mk 1 (.response [3, 4]) 2 (some 4)
              (some ([2, 3, 4], 1))).current_offset)) ∧
      ((RS.mk 1 (.response [3, 4]) 2 (some 4) (some ([2, 3, 4], 1))).response_cache
          = some ([2, 3, 4], 1) →
        (RS.seek ⟨[1, 2, 3, 4]⟩
            (RS.mk 1 (.response [3, 4]) 2 (some 4) (some ([2, 3, 4], 1))) (.start 1)).1.state
            = .response [2, 3, 4] ∧
          (RS.seek ⟨[1, 2, 3, 4]⟩
              (RS.mk 1 (.response [3, 4]) 2 (some 4) (some ([2, 3, 4], 1))) (.start 1)).1.num_requests
            = (RS.mk 1 (.response [3, 4]) 2 (some 4) (some ([2, 3, 4], 1))).num_requests ∧
          (RS.read ⟨[1, 2, 3, 4]⟩
              (RS.seek ⟨[1, 2, 3, 4]⟩
                (RS.mk 1 (.response [3, 4]) 2 (some 4) (some ([2, 3, 4], 1))) (.start 1)).1
              5).1.num_requests
            = (RS.mk 1 (.response [3, 4]) 2 (some 4) (some ([2, 3, 4], 1))).num_requests) :=
  ⟨by decide,
    (RS.rangeseeker_stash_and_revive ⟨[1, 2, 3, 4]⟩
      (RS.mk 1 (.response [3, 4]) 2 (some 4) (some ([2, 3, 4], 1))) (.start 1) 1 5
      [3, 4] [2, 3, 4] trivial rfl (by decide)).1,
    (RS.rangeseeker_stash_and_revive ⟨[1, 2, 3, 4]⟩
      (RS.mk 1 (.response [3, 4]) 2 (some 4) (some ([2, 3, 4], 1))) (.start 1) 1 5
      [3, 4] [2, 3, 4] trivial rfl (by decide)).2.1,
    (RS.rangeseeker_stash_and_revive ⟨[1, 2, 3, 4]⟩
      (RS.mk 1 (.response [3, 4]) 2 (some 4) (some ([2, 3, 4], 1))) (.start 1) 1 5
      [3, 4] [2, 3, 4] trivial rfl (by decide)).2.2⟩

/-- C5 counterexample: from the reachable state produced by
`seek(Start(5))` on a fresh `RangeSeeker` over a 2-byte resource (no
request issued yet, content length unknown, offset past the end), the
discrete operation `seek(End(-1))` followed by one `read` issues three
HTTP requests: the `End`-probe receives `416` and retries at offset 0
(two requests), and the read at the resolved offset issues a third — so
the claimed bound of at most two per seek-then-read is violated. -/
theorem rangeseeker_three_requests_per_seek_read :
    ((RS.seek ⟨[7, 7]⟩ RS.new (.start 5)).1.num_requests = 0) ∧
      ((RS.read ⟨[7, 7]⟩
          (RS.seek ⟨[7, 7]⟩ (RS.seek ⟨[7, 7]⟩ RS.new (.start 5)).1 (.fromEnd (-1))).1
          10).1.num_requests = 3) ∧
      ¬ ((RS.read ⟨[7, 7]⟩
          (RS.seek ⟨[7, 7]⟩ (RS.seek ⟨[7, 7]⟩ RS.new (.start 5)).1 (.fromEnd (-1))).1
          10).1.num_requests
        ≤ (RS.seek ⟨[7, 7]⟩ RS.new (.start 5)).1.num_requests + 2) := by
  refine ⟨rfl, rfl, by decide⟩

/-- C5 (amended): for every discrete seek-then-read on a `RangeSeeker`
over a non-empty resource, `num_requests` increases by at most three; the
third request arises only when an `End`-relative seek with unknown content
length probes from an offset at or past the end (the probe receives `416`
and retries at offset 0, and the read then issues one more).  In every
other case the increase is at most two. -/
theorem rangeseeker_requests_bound (srv : Srv) (rs : RS) (pos : SeekFrom) (n : Nat)
    (hL : 1 ≤ srv.data.length) :
    (RS.read srv (RS.seek srv rs pos).1 n).1.num_requests ≤ rs.num_requests + 3 := by
  rcases RS.seek_num_cases srv rs pos hL with ⟨h1, h2⟩ | ⟨h1, h2⟩
  · have h3 := RS.read_num_le srv (RS.seek srv rs pos).1 n
    omega
  · have h3 := RS.read_num_le_one srv (RS.seek srv rs pos).1 n h2
    omega

/-- Witness for C5's amended bound: fresh seeker, `seek(Start(3))` then a
read on a 2-byte resource. -/
theorem rangeseeker_requests_bound_witness :
    1 ≤ (Srv.mk [7, 7]).data.length ∧
      (RS.read ⟨[7, 7]⟩ (RS.seek ⟨[7, 7]⟩ RS.new (.start 3)).1 4).1.num_requests
        ≤ RS.new.num_requests + 3 :=
  ⟨by decide, rangeseeker_requests_bound ⟨[7, 7]⟩ RS.new (.start 3) 4 (by decide)⟩

/-! ## `filesystem::nodecache::DirCache` (src/filesystem/nodecache.rs)

The inner directory is a deterministic backend: `filesL` is what its
`files()` returns and `byName` what its `file_by_name` returns for each
name (`Ok` node, `NotFound`, or some other error).  Child nodes are
opaque identifiers (`map_node` only re-wraps directory children in a new
`DirCache` and is the identity on the name/identity content counted
here).  `listLog` counts backend `files()` calls and `nameLog` records
each backend `file_by_name` call, so that the at-most-once properties can
be stated.  The `RefCell`s are interior mutability only; operations are
sequential. -/

/-- A child node, by identity. -/
abbrev DNode := Nat

inductive DErr where
  | notFound
  | other
deriving DecidableEq, Repr

structure Backend where
  filesL : List (String × DNode)
  byName : String → Except DErr DNode

structure DirCacheC where
  cached_files : Option (List (String × DNode))
  hidden_cached_files : List (String × DNode)
  non_files : List String
  listCalls : Nat
  nameLog : List String

namespace DirCacheC

/-- `DirCache::new`. -/
def new : DirCacheC :=
  { cached_files := none, hidden_cached_files := [], non_files := [],
    listCalls := 0, nameLog := [] }

/-- `DirCache::files`: answer from `cached_files` when present, otherwise
query the backend once and store the full listing. -/
def files (b : Backend) (d : DirCacheC) : DirCacheC × List (String × DNode) :=
  match d.cached_files with
  | some l => (d, l)
  | none =>
    let l := b.filesL
    ({ d with cached_files := some l, listCalls := d.listCalls + 1 }, l)

/-- `DirCache::file_by_name`: negative memo, positive memo, completed
listing, then the backend; memoize `Ok` under the name, memoize `NotFound`
in the negative set, propagate any other error without caching. -/
def file_by_name (b : Backend) (d : DirCacheC) (name : String) :
    DirCacheC × Except DErr DNode :=
  if name ∈ d.non_files then (d, .error .notFound)
  else
    match (d.hidden_cached_files.find? (fun p => p.1 = name)).map Prod.snd with
    | some node => (d, .ok node)
    | none =>
      let cachedHit : Option DNode :=
        match d.cached_files with
        | some l => (l.find? (fun p => p.1 = name)).map Prod.snd
        | none => none
      match cachedHit with
      | some node => (d, .ok node)
      | none =>
        let d := { d with nameLog := name :: d.nameLog }
        match b.byName name with
        | .ok node =>
          ({ d with hidden_cached_files := (name, node) :: d.hidden_cached_files }, .ok node)
        | .error .notFound =>
          ({ d with non_files := name :: d.non_files }, .error .notFound)
        | .error .other => (d, .error .other)

/-- One cache operation. -/
inductive DOp where
  | files
  | byName (name : String)

/-- Apply one operation, keeping only the state. -/
def applyOp (b : Backend) (d : DirCacheC) : DOp → DirCacheC
  | .files => (files b d).1
  | .byName n => (file_by_name b d n).1

/-- Run a sequence of operations. -/
def runOps (b : Backend) (d : DirCacheC) : List DOp → DirCacheC
  | [] => d
  | op :: ops => runOps b (applyOp b d op) ops

/-- The cache invariant tying the call counters to the memo tables. -/
def inv (b : Backend) (d : DirCacheC) : Prop :=
  (d.cached_files = none → d.listCalls = 0) ∧ d.listCalls ≤ 1 ∧
    (∀ n : String, b.byName n ≠ .error .other →
      d.nameLog.count n ≤ 1 ∧
        (d.nameLog.count n = 1 →
          (∃ x : DNode, (n, x) ∈ d.hidden_cached_files) ∨ n ∈ d.non_files))

theorem inv_new (b : Backend) : inv b new := by
  refine ⟨fun _ => rfl, by simp [new], fun n _ => ⟨by simp [new], ?_⟩⟩
  intro h
  simp [new] at h

theorem inv_applyOp (b : Backend) (d : DirCacheC) (op : DOp) (h : inv b d) :
    inv b (applyOp b d op) := by
  obtain ⟨h1, h2, h3⟩ := h
  cases op with
  | files =>
    cases hc : d.cached_files with
    | some l =>
      simpa [applyOp, files, hc] using ⟨h1, h2, h3⟩
    | none =>
      have h0 := h1 hc
      refine ⟨?_, ?_, ?_⟩ <;> simp [applyOp, files, hc, h0]
      intro n hn
      exact h3 n hn
  | byName name =>
    by_cases hneg : name ∈ d.non_files
    · simpa [applyOp, file_by_name, hneg] using ⟨h1, h2, h3⟩
    · cases hhid : (d.hidden_cached_files.find? (fun p => p.1 = name)).map Prod.snd with
      | some node =>
        simpa [applyOp, file_by_name, hneg, hhid] using ⟨h1, h2, h3⟩
      | none =>
        cases hch : (match d.cached_files with
          | some l => (l.find? (fun p => p.1 = name)).map Prod.snd
          | none => none : Option DNode) with
        | some node =>
          simpa [applyOp, file_by_name, hneg, hhid, hch] using ⟨h1, h2, h3⟩
        | none =>
          -- backend call: the name is logged and memoized unless the
          -- backend reports a non-NotFound error
          have hfind : ∀ x : DNode, (name, x) ∉ d.hidden_cached_files := by
            intro x hx
            have hf0 : d.hidden_cached_files.find? (fun p => p.1 = name) = none := by
              cases hf : d.hidden_cached_files.find? (fun p => p.1 = name) with
              | none => rfl
              | some p =>
                rw [hf] at hhid
                simp at hhid
            have := List.find?_eq_none.mp hf0 _ hx
            simp at this
          have hcnt0 : b.byName name ≠ .error .other → d.nameLog.count name = 0 := by
            intro hno
            rcases Nat.eq_zero_or_pos (d.nameLog.count name) with h0 | hpos
            · exact h0
            · obtain ⟨hle, hmemo⟩ := h3 name hno
              rcases hmemo (by omega) with ⟨x, hx⟩ | hmem
              · exact absurd hx (hfind x)
              · exact absurd hmem hneg
          cases hb : b.byName name with
          | ok node =>
            have happ : applyOp b d (DOp.byName name)
                = { d with nameLog := name :: d.nameLog,
                           hidden_cached_files := (name, node) :: d.hidden_cached_files } := by
              simp [applyOp, file_by_name, hneg, hhid, hch, hb]
            rw [happ]
            refine ⟨h1, h2, ?_⟩
            intro n hn
            by_cases hnn : n = name
            · subst hnn
              have h0 := hcnt0 hn
              refine ⟨by simp [List.count_cons, h0], fun _ => ?_⟩
              exact Or.inl ⟨node, by simp⟩
            · obtain ⟨hle, hmemo⟩ := h3 n hn
              refine ⟨?_, ?_⟩
              · simpa [List.count_cons, hnn] using hle
              · intro hc1
                rcases hmemo (by simpa [List.count_cons, hnn] using hc1) with ⟨x, hx⟩ | hmem
                · exact Or.inl ⟨x, by simp [hx]⟩
                · exact Or.inr hmem
          | error e =>
            cases e with
            | notFound =>
              have happ : applyOp b d (DOp.byName name)
                  = { d with nameLog := name :: d.nameLog,
                             non_files := name :: d.non_files } := by
                simp [applyOp, file_by_name, hneg, hhid, hch, hb]
              rw [happ]
              refine ⟨h1, h2, ?_⟩
              intro n hn
              by_cases hnn : n = name
              · subst hnn
                have h0 := hcnt0 hn
                refine ⟨by simp [List.count_cons, h0], fun _ => ?_⟩
                exact Or.inr (by simp)
              · obtain ⟨hle, hmemo⟩ := h3 n hn
                refine ⟨?_, ?_⟩
                · simpa [List.count_cons, hnn] using hle
                · intro hc1
                  rcases hmemo (by simpa [List.count_cons, hnn] using hc1) with ⟨x, hx⟩ | hmem
                  · exact Or.inl ⟨x, hx⟩
                  · exact Or.inr (by simp [hmem])
            | other =>
              have happ : applyOp b d (DOp.byName name)
                  = { d with nameLog := name :: d.nameLog } := by
                simp [applyOp, file_by_name, hneg, hhid, hch, hb]
              rw [happ]
              refine ⟨h1, h2, ?_⟩
              intro n hn
              by_cases hnn : n = name
              · subst hnn
                exact absurd hb hn
              · obtain ⟨hle, hmemo⟩ := h3 n hn
                refine ⟨?_, ?_⟩
                · simpa [List.count_cons, hnn] using hle
                · intro hc1
                  exact hmemo (by simpa [List.count_cons, hnn] using hc1)

theorem inv_runOps (b : Backend) (d : DirCacheC) (ops : List DOp) (h : inv b d) :
    inv b (runOps b d ops) := by
  induction ops generalizing d with
  | nil => exact h
  | cons op ops ih => exact ih _ (inv_applyOp b d op h)

end DirCacheC

instance : DecidableEq (Except DErr DNode)
  | .ok x, .ok y =>
    if h : x = y then .isTrue (by rw [h])
    else .isFalse (fun hc => h (Except.ok.inj hc))
  | .error x, .error y =>
    if h : x = y then .isTrue (by rw [h])
    else .isFalse (fun hc => h (Except.error.inj hc))
  | .ok _, .error _ => .isFalse (fun hc => Except.noConfusion hc)
  | .error _, .ok _ => .isFalse (fun hc => Except.noConfusion hc)

/-- C2: for every backend directory wrapped in a fresh `DirCache` and any
sequence of `files()` and `file_by_name` calls, the backend is queried at
most once for the full listing; and for every name the backend reports as
existing (`Ok`) or absent (`NotFound`) — as opposed to a transient error,
which the cache deliberately refuses to memoize — the backend
`file_by_name` is called at most once for that name. -/
theorem dircache_at_most_one_backend_query (b : Backend) (ops : List DirCacheC.DOp)
    (n : String) (hn : b.byName n ≠ .error .other) :
    (DirCacheC.runOps b DirCacheC.new ops).listCalls ≤ 1 ∧
      (DirCacheC.runOps b DirCacheC.new ops).nameLog.count n ≤ 1 := by
  have h := DirCacheC.inv_runOps b DirCacheC.new ops (DirCacheC.inv_new b)
  exact ⟨h.2.1, (h.2.2 n hn).1⟩

/-- Witness for C2: a backend with one child `a`; two `files()` calls,
two `file_by_name("a")` and two `file_by_name("z")` calls. -/
theorem dircache_at_most_one_backend_query_witness :
    (Backend.mk [("a", 1)] (fun s => if s = "a" then .ok 1 else .error .notFound)).byName "z"
        ≠ .error .other ∧
      (DirCacheC.runOps
          (Backend.mk [("a", 1)] (fun s => if s = "a" then .ok 1 else .error .notFound))
          DirCacheC.new
          [.files, .files, .byName "a", .byName "a", .byName "z", .byName "z"]).listCalls ≤ 1 ∧
      (DirCacheC.runOps
          (Backend.mk [("a", 1)] (fun s => if s = "a" then .ok 1 else .error .notFound))
          DirCacheC.new
          [.files, .files, .byName "a", .byName "a", .byName "z", .byName "z"]).nameLog.count "z"
        ≤ 1 :=
  ⟨by decide,
    (dircache_at_most_one_backend_query
      (Backend.mk [("a", 1)] (fun s => if s = "a" then .ok 1 else .error .notFound))
      [.files, .files, .byName "a", .byName "a", .byName "z", .byName "z"] "z"
      (by decide)).1,
    (dircache_at_most_one_backend_query
      (Backend.mk [("a", 1)] (fun s => if s = "a" then .ok 1 else .error .notFound))
      [.files, .files, .byName "a", .byName "a", .byName "z", .byName "z"] "z"
      (by decide)).2⟩

/-! ## `filesystem::FS::open` (src/filesystem/mod.rs)

The pieces of the responder state that `open` touches: the inode table
(nodes by inode number), the read-handle table and its counter.  A file
node carries the outcome of its `open_ro()` (a reader id on success);
`node.file().expect(..)` on a non-file is a Rust panic, modelled as a
distinguished reply.  `libc` constants for Linux: `O_APPEND = 0o2000`,
`O_CREAT = 0o100`, `O_EXCL = 0o200`, `O_TRUNC = 0o1000`, `EROFS = 30`,
`ENOENT = 2`, `EIO = 5` (named `EIO_code` here). -/

inductive FNode where
  | file (openRo : Except Unit Nat)
  | directory
  | symlink

structure FSState where
  nodes : List (Nat × FNode)
  read_handles : List (Nat × Nat)
  next_read_handle : Nat

inductive OpenReply where
  | opened (fh : Nat) (flags : Nat)
  | error (errno : Nat)
  | panicked
deriving DecidableEq, Repr

def O_APPEND : Nat := 1024
def O_CREAT : Nat := 64
def O_EXCL : Nat := 128
def O_TRUNC : Nat := 512
def EROFS : Nat := 30
def ENOENT : Nat := 2
def EIO_code : Nat := 5

/-- `O_APPEND | O_CREAT | O_EXCL | O_TRUNC`. -/
def WRITE_FLAGS : Nat := O_APPEND ||| O_CREAT ||| O_EXCL ||| O_TRUNC

namespace FSState

/-- `FS::open`: reject any write-intent flag with `EROFS` before touching
anything; then resolve the inode (`ENOENT` when unknown), require a file
(panic otherwise), call `open_ro()` (`EIO` on failure), and only then
allocate a fresh read handle. -/
def openFile (fs : FSState) (ino : Nat) (flags : Nat) : FSState × OpenReply :=
  if flags &&& WRITE_FLAGS ≠ 0 then (fs, .error EROFS)
  else
    match (fs.nodes.find? (fun p => p.1 = ino)).map Prod.snd with
    | none => (fs, .error ENOENT)
    | some (.file openRo) =>
      match openRo with
      | .ok reader =>
        let fh := fs.next_read_handle
        ({ fs with next_read_handle := fs.next_read_handle + 1,
                   read_handles := (fh, reader) :: fs.read_handles }, .opened fh flags)
      | .error _ => (fs, .error EIO_code)
    | some _ => (fs, .panicked)

end FSState

/-- C8: for every `open(ino, flags)` with any write-intent flag set
(append, create, exclusive, or truncate — i.e. `flags & WRITE_FLAGS ≠ 0`),
the responder replies `EROFS` and never allocates a handle: the entire
state, in particular the read-handle table and the next-handle counter,
is unchanged — for every inode, including unknown ones. -/
theorem fs_open_write_flags_erofs (fs : FSState) (ino flags : Nat)
    (h : flags &&& WRITE_FLAGS ≠ 0) :
    fs.openFile ino flags = (fs, .error EROFS) := by
  rw [FSState.openFile, if_pos h]

/-- Witness for C8: `O_TRUNC` alone on an unknown inode of an empty
state. -/
theorem fs_open_write_flags_erofs_witness :
    (O_TRUNC &&& WRITE_FLAGS ≠ 0) ∧
      (FSState.mk [] [] 1).openFile 42 O_TRUNC = (FSState.mk [] [] 1, .error EROFS) :=
  ⟨by decide, fs_open_write_flags_erofs (FSState.mk [] [] 1) 42 O_TRUNC (by decide)⟩
